import Mathlib

/-!
Shallow embedding of the `lcw-fetch` data-fetching service, covering the
circuit breaker and LRU/TTL response cache of
`src/lcw_fetcher/api/client.py` and `src/lcw_fetcher/utils/cache.py`,
and the fetch orchestration of `src/lcw_fetcher/fetcher.py`.
Time (Python `time.time()`) is modelled as a rational number of seconds.
-/

namespace LCW

/-! ### Circuit breaker (`client.py`, class `CircuitBreaker`) -/

/-- `CircuitBreakerState` enum from `client.py`. -/
inductive BreakerState where
  | closed
  | «open»
  | halfOpen
deriving DecidableEq, Repr

/-- State of a `CircuitBreaker` instance: constructor arguments
`failure_threshold` and `timeout`, plus the mutable fields
`failure_count`, `last_failure_time` (initially `None`) and `state`. -/
structure CircuitBreaker where
  failure_threshold : Nat
  timeout : ℚ
  failure_count : Nat
  last_failure_time : Option ℚ
  state : BreakerState
deriving DecidableEq, Repr

namespace CircuitBreaker

/-- `CircuitBreaker.__init__(failure_threshold, timeout)`. -/
def init (failure_threshold : Nat) (timeout : ℚ) : CircuitBreaker :=
  { failure_threshold := failure_threshold
    timeout := timeout
    failure_count := 0
    last_failure_time := none
    state := .closed }

/-- `CircuitBreaker.can_execute`: returns whether a request may proceed and
the (possibly updated) breaker; in the `OPEN` state it moves to `HALF_OPEN`
when strictly more than `timeout` seconds have passed since the last
failure. `now` is the value of `time.time()` at the call. -/
def can_execute (b : CircuitBreaker) (now : ℚ) : Bool × CircuitBreaker :=
  match b.state with
  | .closed => (true, b)
  | .open =>
      if b.timeout < now - (b.last_failure_time.getD 0) then
        (true, { b with state := .halfOpen })
      else
        (false, b)
  | .halfOpen => (true, b)

/-- `CircuitBreaker.record_success`. -/
def record_success (b : CircuitBreaker) : CircuitBreaker :=
  { b with failure_count := 0, state := .closed }

/-- `CircuitBreaker.record_failure` at time `now`. -/
def record_failure (b : CircuitBreaker) (now : ℚ) : CircuitBreaker :=
  let b := { b with
    failure_count := b.failure_count + 1
    last_failure_time := some now }
  if b.failure_threshold ≤ b.failure_count then
    { b with state := .open }
  else
    b

end CircuitBreaker

/-- One externally triggered breaker transition: the three methods a client
of `CircuitBreaker` can invoke. -/
inductive BreakerEvent where
  | success
  | failure (now : ℚ)
  | canExec (now : ℚ)

/-- Apply one `BreakerEvent` to a breaker (the Boolean result of
`can_execute` is discarded; only the state effect is kept). -/
def breakerStep (b : CircuitBreaker) (e : BreakerEvent) : CircuitBreaker :=
  match e with
  | .success => b.record_success
  | .failure now => b.record_failure now
  | .canExec now => (b.can_execute now).2

/-- Run a breaker from a start state through a list of events. -/
def breakerRun (b : CircuitBreaker) (evs : List BreakerEvent) : CircuitBreaker :=
  evs.foldl breakerStep b

/-- Outcome of one HTTP request as classified by
`LCWClient._make_request`'s error handling. -/
inductive RequestOutcome where
  | success
  | http401
  | rateLimited
  | serverError
  | clientError
  | netError
deriving DecidableEq, Repr

/-- Effect of one request outcome on the circuit breaker, as performed by
`LCWClient._make_request`: `401`, `5xx` and network exceptions call
`record_failure`; success calls `record_success`; `429` (rate limit) and
other `4xx` touch the breaker not at all. -/
def outcomeStep (b : CircuitBreaker) (now : ℚ) (o : RequestOutcome) :
    CircuitBreaker :=
  match o with
  | .success => b.record_success
  | .http401 => b.record_failure now
  | .rateLimited => b
  | .serverError => b.record_failure now
  | .clientError => b
  | .netError => b.record_failure now

/-- One full pass of `_make_request` through the breaker (ignoring the
cache): `can_execute` is consulted first (possibly moving
`OPEN → HALF_OPEN`); when it refuses, the request is not made and the
outcome never happens. -/
def requestStep (b : CircuitBreaker) (r : ℚ × RequestOutcome) :
    CircuitBreaker :=
  let (allowed, b1) := b.can_execute r.1
  if allowed then outcomeStep b1 r.1 r.2 else b1

/-- Run the breaker through a sequence of timed request outcomes. -/
def requestRun (b : CircuitBreaker) (reqs : List (ℚ × RequestOutcome)) :
    CircuitBreaker :=
  reqs.foldl requestStep b

/-! ### Circuit breaker lemmas -/

/-- Whenever the breaker is `OPEN` or `HALF_OPEN`, at least
`failure_threshold` failures have been counted. -/
def BreakerCountInv (b : CircuitBreaker) : Prop :=
  (b.state = .open ∨ b.state = .halfOpen) →
    b.failure_threshold ≤ b.failure_count

theorem breakerStep_inv {b : CircuitBreaker} (hb : BreakerCountInv b)
    (e : BreakerEvent) : BreakerCountInv (breakerStep b e) := by
  cases e with
  | success =>
      intro h
      simp [breakerStep, CircuitBreaker.record_success] at h
  | failure now =>
      intro h
      simp only [breakerStep, CircuitBreaker.record_failure] at h ⊢
      by_cases hc : b.failure_threshold ≤ b.failure_count + 1
      · simp only [if_pos hc]
        exact hc
      · simp only [if_neg hc] at h ⊢
        exact le_trans (hb h) (Nat.le_succ _)
  | canExec now =>
      intro h
      simp only [breakerStep, CircuitBreaker.can_execute] at h ⊢
      cases hs : b.state with
      | closed =>
          simp only [hs] at h
          exact absurd h (by simp)
      | «open» =>
          by_cases hc : b.timeout < now - b.last_failure_time.getD 0
          · simp only [hs, if_pos hc] at h ⊢
            exact hb (Or.inl hs)
          · simp only [hs, if_neg hc] at h ⊢
            exact hb (Or.inl hs)
      | halfOpen =>
          simp only [hs] at h ⊢
          exact hb (Or.inr hs)

theorem breakerRun_inv {b : CircuitBreaker} (hb : BreakerCountInv b)
    (evs : List BreakerEvent) : BreakerCountInv (breakerRun b evs) := by
  induction evs generalizing b with
  | nil => exact hb
  | cons e evs ih => exact ih (breakerStep_inv hb e)

theorem init_inv (thr : Nat) (tmo : ℚ) :
    BreakerCountInv (CircuitBreaker.init thr tmo) := by
  intro h
  simp [CircuitBreaker.init] at h

/-- A rate-limited or successful request leaves a closed breaker closed;
a rate-limited one leaves it entirely unchanged. -/
theorem requestStep_closed {b : CircuitBreaker} (hb : b.state = .closed)
    (now : ℚ) (o : RequestOutcome)
    (ho : o = .success ∨ o = .rateLimited) :
    (requestStep b (now, o)).state = .closed ∧
      (o = .rateLimited → requestStep b (now, o) = b) := by
  have hexec : b.can_execute now = (true, b) := by
    simp [CircuitBreaker.can_execute, hb]
  rcases ho with rfl | rfl
  · refine ⟨?_, by intro h; cases h⟩
    simp [requestStep, hexec, outcomeStep, CircuitBreaker.record_success]
  · constructor
    · simp [requestStep, hexec, outcomeStep, hb]
    · intro _; simp [requestStep, hexec, outcomeStep]

theorem requestRun_closed {b : CircuitBreaker} (hb : b.state = .closed)
    (reqs : List (ℚ × RequestOutcome))
    (h : ∀ r ∈ reqs, r.2 = .success ∨ r.2 = .rateLimited) :
    (requestRun b reqs).state = .closed := by
  induction reqs generalizing b with
  | nil => exact hb
  | cons r reqs ih =>
      have h1 := requestStep_closed hb r.1 r.2 (h r (by simp))
      exact ih h1.1 (fun r hr => h r (by simp [hr]))

/-! ### Claim theorems: circuit breaker -/

/-- C2: starting from a fresh breaker, a sequence of request outcomes in
which every failure is a rate limit (each outcome is a success or an HTTP
429) never brings the breaker to the `OPEN` state — after every prefix the
state is still `CLOSED` — and each rate-limited outcome leaves the breaker
(state and failure count) completely unchanged. -/
theorem rate_limits_never_open (thr : Nat) (tmo : ℚ)
    (reqs : List (ℚ × RequestOutcome))
    (h : ∀ r ∈ reqs, r.2 = .success ∨ r.2 = .rateLimited) :
    (∀ pre rest, reqs = pre ++ rest →
      (requestRun (CircuitBreaker.init thr tmo) pre).state = .closed) ∧
    (∀ pre rest (now : ℚ), reqs = pre ++ (now, .rateLimited) :: rest →
      requestRun (CircuitBreaker.init thr tmo) (pre ++ [(now, .rateLimited)]) =
        requestRun (CircuitBreaker.init thr tmo) pre) := by
  have hclosed : ∀ pre rest, reqs = pre ++ rest →
      (requestRun (CircuitBreaker.init thr tmo) pre).state = .closed := by
    intro pre rest hsplit
    refine requestRun_closed rfl pre ?_
    intro r hr
    exact h r (by simp [hsplit, hr])
  refine ⟨hclosed, ?_⟩
  intro pre rest now hsplit
  have hpre : (requestRun (CircuitBreaker.init thr tmo) pre).state = .closed :=
    hclosed pre ((now, .rateLimited) :: rest) hsplit
  have hid := (requestStep_closed hpre now .rateLimited (Or.inr rfl)).2 rfl
  simp [requestRun, List.foldl_append]
  exact hid

/-- C2 witness: a single rate-limited outcome leaves the fresh breaker
unchanged. -/
theorem rate_limits_never_open_witness :
    requestRun (CircuitBreaker.init 5 60) [((0 : ℚ), .rateLimited)] =
      requestRun (CircuitBreaker.init 5 60) [] :=
  (rate_limits_never_open 5 60 [((0 : ℚ), .rateLimited)]
    (by intro r hr; simp at hr; simp [hr])).2 [] [] 0 rfl

/-- C4: with `failure_threshold = 5`, after exactly 5 consecutive
`record_failure` calls (at arbitrary times, the last at `t5`) a
`can_execute` issued while strictly less than the 60-second timeout has
elapsed returns `false`; after only 4 such calls it returns `true`. -/
theorem breaker_opens_at_threshold (t1 t2 t3 t4 t5 now : ℚ)
    (h : now - t5 < 60) :
    ((breakerRun (CircuitBreaker.init 5 60)
        [.failure t1, .failure t2, .failure t3, .failure t4, .failure t5]
      ).can_execute now).1 = false ∧
    ((breakerRun (CircuitBreaker.init 5 60)
        [.failure t1, .failure t2, .failure t3, .failure t4]
      ).can_execute now).1 = true := by
  constructor
  · show (CircuitBreaker.can_execute
      { failure_threshold := 5, timeout := 60, failure_count := 5,
        last_failure_time := some t5, state := .open } now).1 = false
    simp only [CircuitBreaker.can_execute, Option.getD_some]
    rw [if_neg (by linarith)]
  · rfl

/-- C4 witness at concrete times. -/
theorem breaker_opens_at_threshold_witness :
    ((breakerRun (CircuitBreaker.init 5 60)
        [.failure 0, .failure 1, .failure 2, .failure 3, .failure 4]
      ).can_execute 10).1 = false ∧
    ((breakerRun (CircuitBreaker.init 5 60)
        [.failure 0, .failure 1, .failure 2, .failure 3]
      ).can_execute 10).1 = true :=
  breaker_opens_at_threshold 0 1 2 3 4 10 (by norm_num)

/-- A breaker that has just opened: five failures at time 0 with the
client's parameters `failure_threshold = 5`, `timeout = 60`. -/
def openBreakerAt0 : CircuitBreaker :=
  (((((CircuitBreaker.init 5 60).record_failure 0).record_failure
    0).record_failure 0).record_failure 0).record_failure 0

/-- C5 counterexample: with the last failure at time 0 and
`open_duration = 60`, `can_execute` invoked at exactly `t = 60`
(elapsed time exactly 60 s) still returns `false` and leaves the state
`OPEN` — the claim asserts it returns `true` and moves to `HALF_OPEN` at
exactly 60 s, but the code requires elapsed time strictly greater than
the timeout. -/
theorem can_execute_at_exact_timeout :
    openBreakerAt0.state = .open ∧
    openBreakerAt0.last_failure_time = some 0 ∧
    (openBreakerAt0.can_execute 60).1 = false ∧
    (openBreakerAt0.can_execute 60).2.state = .open := by
  refine ⟨rfl, rfl, ?_, ?_⟩ <;>
    simp [openBreakerAt0, CircuitBreaker.init, CircuitBreaker.record_failure,
      CircuitBreaker.can_execute]

/-- C5 (amended): for a breaker in the `OPEN` state with
`open_duration = 60` s and last failure at `t`, `can_execute` at `now`
returns `false` (leaving the breaker unchanged) whenever at most 60 s
have elapsed — including at exactly 60 s — and returns `true` with the
state set to `HALF_OPEN` whenever strictly more than 60 s have
elapsed. -/
theorem open_breaker_can_execute (b : CircuitBreaker) (t : ℚ)
    (hs : b.state = .open) (ht : b.timeout = 60)
    (hl : b.last_failure_time = some t) (now : ℚ) :
    (now - t ≤ 60 → b.can_execute now = (false, b)) ∧
    (60 < now - t →
      b.can_execute now = (true, { b with state := .halfOpen })) := by
  constructor
  · intro hle
    simp only [CircuitBreaker.can_execute, hs, ht, hl, Option.getD_some]
    rw [if_neg (by linarith)]
  · intro hlt
    simp only [CircuitBreaker.can_execute, hs, ht, hl, Option.getD_some]
    rw [if_pos (by linarith)]

/-- C5 amended-claim witness: strictly after the timeout the breaker
probes half-open. -/
theorem open_breaker_can_execute_witness :
    openBreakerAt0.can_execute 61 =
      (true, { openBreakerAt0 with state := .halfOpen }) :=
  (open_breaker_can_execute openBreakerAt0 0 rfl rfl rfl 61).2 (by norm_num)

/-- C6: in every breaker state reachable from the initial closed state by
`record_success`, `record_failure` and `can_execute` in which the state is
`HALF_OPEN`, one `record_success` resets the failure count to 0 and the
state to `CLOSED`, and one `record_failure` (at any time) returns the
state to `OPEN`. -/
theorem halfOpen_recovery (thr : Nat) (tmo : ℚ) (evs : List BreakerEvent)
    (h : (breakerRun (CircuitBreaker.init thr tmo) evs).state = .halfOpen) :
    ((breakerRun (CircuitBreaker.init thr tmo) evs).record_success).failure_count
        = 0 ∧
    ((breakerRun (CircuitBreaker.init thr tmo) evs).record_success).state
        = .closed ∧
    ∀ now : ℚ,
      ((breakerRun (CircuitBreaker.init thr tmo) evs).record_failure now).state
        = .open := by
  refine ⟨rfl, rfl, ?_⟩
  intro now
  have hinv : BreakerCountInv (breakerRun (CircuitBreaker.init thr tmo) evs) :=
    breakerRun_inv (init_inv thr tmo) evs
  have hcount := hinv (Or.inr h)
  simp only [CircuitBreaker.record_failure]
  rw [if_pos (le_trans hcount (Nat.le_succ _))]

/-- C6 witness: with threshold 1, one failure then a late `can_execute`
reaches `HALF_OPEN`, from which `record_failure` reopens the breaker. -/
theorem halfOpen_recovery_witness :
    ((breakerRun (CircuitBreaker.init 1 60)
        [.failure 0, .canExec 61]).record_failure 62).state = .open :=
  (halfOpen_recovery 1 60 [.failure 0, .canExec 61] (by
    norm_num [breakerRun, breakerStep, CircuitBreaker.init,
      CircuitBreaker.record_failure, CircuitBreaker.can_execute])).2.2 62

/-! ### Simple in-memory cache (`utils/cache.py`)

Python's `dict` is modelled as an association list in insertion order with
unique keys; `_access_order` is a list of keys; `time.time()` is an
explicit rational `now` argument.  The MD5 key digest of `_generate_key`
is modelled as the identity on keys (it is injective on the inputs the
program uses). -/

/-- `CacheEntry` dataclass. -/
structure CacheEntry (V : Type) where
  data : V
  created_at : ℚ
  expires_at : ℚ
  hit_count : Nat
deriving DecidableEq, Repr

/-- `CacheEntry.is_expired`: `time.time() > self.expires_at`. -/
def CacheEntry.is_expired {V : Type} (now : ℚ) (e : CacheEntry V) : Bool :=
  decide (e.expires_at < now)

/-- Python dict lookup `l[k]` (first — and only — binding of `k`). -/
def lookupKey {K β : Type} [DecidableEq K] :
    List (K × β) → K → Option β
  | [], _ => none
  | p :: rest, k => if p.1 = k then some p.2 else lookupKey rest k

/-- Python `k in l` for a dict. -/
def containsKey {K β : Type} [DecidableEq K] (l : List (K × β)) (k : K) :
    Bool :=
  (lookupKey l k).isSome

/-- Python `del l[k]`: removes the (unique) binding of `k`. -/
def eraseKey {K β : Type} [DecidableEq K] :
    List (K × β) → K → List (K × β)
  | [], _ => []
  | p :: rest, k => if p.1 = k then rest else p :: eraseKey rest k

/-- Python `l[k] = v`: overwrites in place when present, appends when
new. -/
def setKey {K β : Type} [DecidableEq K] :
    List (K × β) → K → β → List (K × β)
  | [], k, v => [(k, v)]
  | p :: rest, k, v =>
      if p.1 = k then (k, v) :: rest else p :: setKey rest k v

/-- Python `list.remove(x)` guarded by `if x in l` (removes the first
occurrence, no-op when absent). -/
def listRemove {K : Type} [DecidableEq K] : List K → K → List K
  | [], _ => []
  | a :: rest, k => if a = k then rest else a :: listRemove rest k

/-- The keys of a dict, in insertion order. -/
def dictKeys {K β : Type} (l : List (K × β)) : List K :=
  l.map Prod.fst

/-- Python `x % 60` on floats (used by `SimpleCache.get` for the periodic
cleanup): `x - 60 * (x // 60)`. -/
def ratMod60 (x : ℚ) : ℚ :=
  x - 60 * (⌊x / 60⌋ : ℤ)

/-- State of a `SimpleCache` instance: `max_size`, `default_ttl`, the
`_cache` dict, the `_access_order` list and the `stats` counters. -/
structure SimpleCache (K V : Type) where
  max_size : Nat
  default_ttl : ℚ
  cache : List (K × CacheEntry V)
  access_order : List K
  hits : Nat
  misses : Nat
  evictions : Nat
  expired_entries : Nat
deriving Repr

namespace SimpleCache

variable {K V : Type} [DecidableEq K]

/-- `SimpleCache.__init__(max_size, default_ttl)`. -/
def init (max_size : Nat) (default_ttl : ℚ) : SimpleCache K V :=
  { max_size := max_size
    default_ttl := default_ttl
    cache := []
    access_order := []
    hits := 0
    misses := 0
    evictions := 0
    expired_entries := 0 }

/-- `SimpleCache._evict_lru`. -/
def evict_lru (c : SimpleCache K V) : SimpleCache K V :=
  match c.access_order with
  | [] => c
  | lru :: rest =>
      if containsKey c.cache lru then
        { c with
          access_order := rest
          cache := eraseKey c.cache lru
          evictions := c.evictions + 1 }
      else
        { c with access_order := rest }

/-- `SimpleCache._cleanup_expired` at time `now`. -/
def cleanup_expired (now : ℚ) (c : SimpleCache K V) : SimpleCache K V :=
  let expired_keys :=
    dictKeys (c.cache.filter fun p => decide (p.2.expires_at < now))
  { c with
    cache := c.cache.filter fun p => !(decide (p.2.expires_at < now))
    access_order := expired_keys.foldl listRemove c.access_order
    expired_entries := c.expired_entries + expired_keys.length }

/-- Body of `SimpleCache.get` after the periodic-cleanup step: miss on
absent key, expiry check with removal, recency and statistics updates on
a hit. -/
def getCore (now : ℚ) (key : K) (c1 : SimpleCache K V) :
    Option V × SimpleCache K V :=
  match lookupKey c1.cache key with
  | none => (none, { c1 with misses := c1.misses + 1 })
  | some entry =>
      if entry.is_expired now then
        (none,
         { c1 with
           cache := eraseKey c1.cache key
           access_order := listRemove c1.access_order key
           expired_entries := c1.expired_entries + 1
           misses := c1.misses + 1 })
      else
        (some entry.data,
         { c1 with
           cache :=
             setKey c1.cache key { entry with hit_count := entry.hit_count + 1 }
           access_order := listRemove c1.access_order key ++ [key]
           hits := c1.hits + 1 })

/-- `SimpleCache.get` at time `now`; returns the looked-up value and the
updated cache.  The body mirrors the source: the periodic cleanup runs
first when the cache is non-empty and `time.time() % 60 < 1`, then the
lookup proper. -/
def get (now : ℚ) (key : K) (c : SimpleCache K V) :
    Option V × SimpleCache K V :=
  getCore now key
    (if 0 < c.cache.length ∧ ratMod60 now < 1 then cleanup_expired now c
     else c)

/-- `SimpleCache.set` at time `now` with optional TTL (`None` means
`default_ttl`): evict the LRU entry when at capacity, then insert or
overwrite and move the key to the most-recent end. -/
def set (now : ℚ) (key : K) (value : V) (ttl : Option ℚ)
    (c : SimpleCache K V) : SimpleCache K V :=
  let t := ttl.getD c.default_ttl
  let c1 := if c.max_size ≤ c.cache.length then evict_lru c else c
  let entry : CacheEntry V :=
    { data := value, created_at := now, expires_at := now + t, hit_count := 0 }
  { c1 with
    cache := setKey c1.cache key entry
    access_order := listRemove c1.access_order key ++ [key] }

/-- `SimpleCache.clear`. -/
def clear (c : SimpleCache K V) : SimpleCache K V :=
  { c with cache := [], access_order := [] }

end SimpleCache

/-- One public cache operation (`set`, `get` or `clear`), with the value
of `time.time()` at which it runs. -/
inductive CacheOp (K V : Type) where
  | set (now : ℚ) (key : K) (value : V) (ttl : Option ℚ)
  | get (now : ℚ) (key : K)
  | clear

/-- Apply one operation (the result of a `get` is discarded). -/
def applyOp {K V : Type} [DecidableEq K] (c : SimpleCache K V)
    (op : CacheOp K V) : SimpleCache K V :=
  match op with
  | .set now k v ttl => SimpleCache.set now k v ttl c
  | .get now k => (SimpleCache.get now k c).2
  | .clear => SimpleCache.clear c

/-- Run a cache through a sequence of operations. -/
def cacheRun {K V : Type} [DecidableEq K] (c : SimpleCache K V)
    (ops : List (CacheOp K V)) : SimpleCache K V :=
  ops.foldl applyOp c

/-! ### Association-list and recency-list lemmas -/

section ListLemmas

variable {K β : Type} [DecidableEq K]

theorem containsKey_iff_mem_keys (l : List (K × β)) (k : K) :
    containsKey l k = true ↔ k ∈ dictKeys l := by
  induction l with
  | nil => simp [containsKey, lookupKey, dictKeys]
  | cons p rest ih =>
      by_cases hk : p.1 = k
      · simp [containsKey, lookupKey, dictKeys, hk]
      · simpa [containsKey, lookupKey, dictKeys, hk, Ne.symm hk] using ih

theorem lookupKey_eq_none (l : List (K × β)) (k : K) :
    lookupKey l k = none ↔ k ∉ dictKeys l := by
  rw [← containsKey_iff_mem_keys]
  cases hl : lookupKey l k <;> simp [containsKey, hl]

theorem dictKeys_eraseKey (l : List (K × β)) (k : K) :
    dictKeys (eraseKey l k) = listRemove (dictKeys l) k := by
  induction l with
  | nil => rfl
  | cons p rest ih =>
      by_cases hk : p.1 = k
      · simp [eraseKey, listRemove, dictKeys, hk]
      · simp only [eraseKey, if_neg hk, dictKeys, List.map_cons, listRemove]
        exact congrArg (List.cons p.1) ih

theorem dictKeys_setKey (l : List (K × β)) (k : K) (v : β) :
    dictKeys (setKey l k v) =
      if containsKey l k then dictKeys l else dictKeys l ++ [k] := by
  induction l with
  | nil => simp [setKey, containsKey, lookupKey, dictKeys]
  | cons p rest ih =>
      by_cases hk : p.1 = k
      · simp [setKey, containsKey, lookupKey, dictKeys, hk]
      · have hsk : setKey (p :: rest) k v = p :: setKey rest k v := by
          simp [setKey, hk]
        have hck : containsKey (p :: rest) k = containsKey rest k := by
          simp [containsKey, lookupKey, hk]
        rw [hsk, hck]
        show p.1 :: dictKeys (setKey rest k v) = _
        rw [ih]
        by_cases hc : containsKey rest k
        · rw [if_pos hc, if_pos hc]
          rfl
        · rw [if_neg hc, if_neg hc]
          rfl

theorem listRemove_sublist (l : List K) (k : K) :
    List.Sublist (listRemove l k) l := by
  induction l with
  | nil => simp [listRemove]
  | cons a rest ih =>
      by_cases hk : a = k
      · simpa [listRemove, hk] using List.sublist_cons_self _ _
      · simpa [listRemove, hk] using List.Sublist.cons₂ a ih

theorem listRemove_nodup {l : List K} (h : l.Nodup) (k : K) :
    (listRemove l k).Nodup :=
  (listRemove_sublist l k).nodup h

theorem mem_listRemove {l : List K} (h : l.Nodup) (a k : K) :
    a ∈ listRemove l k ↔ a ∈ l ∧ a ≠ k := by
  induction l with
  | nil => simp [listRemove]
  | cons b rest ih =>
      rw [List.nodup_cons] at h
      by_cases hk : b = k
      · subst hk
        simp only [listRemove, if_pos rfl, List.mem_cons]
        constructor
        · intro ha
          exact ⟨Or.inr ha, fun hab => h.1 (hab ▸ ha)⟩
        · rintro ⟨(rfl | ha), hne⟩
          · exact absurd rfl hne
          · exact ha
      · simp only [listRemove, if_neg hk, List.mem_cons, ih h.2]
        constructor
        · rintro (rfl | ⟨ha, hne⟩)
          · exact ⟨Or.inl rfl, fun hh => hk hh⟩
          · exact ⟨Or.inr ha, hne⟩
        · rintro ⟨(rfl | ha), hne⟩
          · exact Or.inl rfl
          · exact Or.inr ⟨ha, hne⟩

theorem length_eraseKey {l : List (K × β)} {k : K}
    (h : containsKey l k = true) :
    (eraseKey l k).length + 1 = l.length := by
  induction l with
  | nil => simp [containsKey, lookupKey] at h
  | cons p rest ih =>
      by_cases hk : p.1 = k
      · simp [eraseKey, hk]
      · simp only [containsKey, lookupKey, if_neg hk] at h
        simp [eraseKey, hk, ih h]

theorem length_setKey (l : List (K × β)) (k : K) (v : β) :
    (setKey l k v).length =
      if containsKey l k then l.length else l.length + 1 := by
  induction l with
  | nil => simp [setKey, containsKey, lookupKey]
  | cons p rest ih =>
      by_cases hk : p.1 = k
      · simp [setKey, containsKey, lookupKey, hk]
      · have hck : containsKey (p :: rest) k = containsKey rest k := by
          simp [containsKey, lookupKey, if_neg hk]
        rw [hck]
        simp only [setKey, if_neg hk, List.length_cons, ih]
        by_cases hc : containsKey rest k <;> simp [hc]

theorem length_filter_le (l : List (K × β)) (p : K × β → Bool) :
    (l.filter p).length ≤ l.length :=
  List.length_filter_le p l

theorem lookupKey_setKey_self (l : List (K × β)) (k : K) (v : β) :
    lookupKey (setKey l k v) k = some v := by
  induction l with
  | nil => simp [setKey, lookupKey]
  | cons p rest ih =>
      by_cases hk : p.1 = k
      · simp [setKey, lookupKey, hk]
      · simp [setKey, lookupKey, hk, ih]

theorem lookupKey_setKey_ne (l : List (K × β)) {k k' : K} (h : k' ≠ k)
    (v : β) : lookupKey (setKey l k v) k' = lookupKey l k' := by
  induction l with
  | nil => simp [setKey, lookupKey, Ne.symm h]
  | cons p rest ih =>
      by_cases hk : p.1 = k
      · subst hk
        simp only [setKey, if_pos rfl, lookupKey, if_neg (Ne.symm h)]
      · by_cases hk' : p.1 = k'
        · simp only [setKey, if_neg hk, lookupKey, if_pos hk']
        · simp only [setKey, if_neg hk, lookupKey, if_neg hk', ih]

theorem lookupKey_eraseKey_self {l : List (K × β)}
    (h : (dictKeys l).Nodup) (k : K) :
    lookupKey (eraseKey l k) k = none := by
  induction l with
  | nil => rfl
  | cons p rest ih =>
      simp only [dictKeys, List.map_cons, List.nodup_cons] at h
      by_cases hk : p.1 = k
      · subst hk
        simp only [eraseKey, if_pos rfl]
        rw [lookupKey_eq_none]
        exact h.1
      · simp [eraseKey, lookupKey, hk, ih h.2]

theorem nodup_append_singleton {l : List K} (h : l.Nodup) {a : K}
    (ha : a ∉ l) : (l ++ [a]).Nodup := by
  refine List.Nodup.append h (by simp) ?_
  intro x hx hxa
  simp at hxa
  exact ha (hxa ▸ hx)

theorem mem_keys_filter {l : List (K × β)} (h : (dictKeys l).Nodup)
    (p : K × β → Bool) (a : K) :
    a ∈ dictKeys (l.filter p) ↔
      ∃ e, lookupKey l a = some e ∧ p (a, e) = true := by
  induction l with
  | nil => simp [dictKeys, lookupKey]
  | cons q rest ih =>
      simp only [dictKeys, List.map_cons, List.nodup_cons] at h
      by_cases hq : q.1 = a
      · subst hq
        have hnotrest : q.1 ∉ dictKeys (rest.filter p) := fun hmem =>
          h.1 ((List.Sublist.map Prod.fst (List.filter_sublist rest)).subset
            hmem)
        cases hp : p q with
        | true =>
            rw [List.filter_cons_of_pos (by simp [hp])]
            simp only [dictKeys, List.map_cons, List.mem_cons, lookupKey,
              if_pos rfl]
            constructor
            · intro _
              refine ⟨q.2, rfl, ?_⟩
              have : (q.1, q.2) = q := rfl
              rw [this, hp]
            · intro _
              simp
        | false =>
            rw [List.filter_cons_of_neg (by simp [hp])]
            simp only [lookupKey, if_pos rfl]
            constructor
            · intro hmem
              exact absurd hmem hnotrest
            · rintro ⟨e, he, hpe⟩
              injection he with he2
              subst he2
              have : (q.1, q.2) = q := rfl
              rw [this, hp] at hpe
              cases hpe
      · cases hp : p q with
        | true =>
            rw [List.filter_cons_of_pos (by simp [hp])]
            simp only [dictKeys, List.map_cons, List.mem_cons, lookupKey,
              if_neg hq]
            rw [show List.map Prod.fst (rest.filter p)
                = dictKeys (rest.filter p) from rfl, ih h.2]
            constructor
            · rintro (rfl | he)
              · exact absurd rfl hq
              · exact he
            · intro he
              exact Or.inr he
        | false =>
            rw [List.filter_cons_of_neg (by simp [hp])]
            simp only [lookupKey, if_neg hq]
            exact ih h.2

theorem mem_foldl_listRemove {l : List K} (h : l.Nodup) (ks : List K)
    (a : K) : a ∈ ks.foldl listRemove l ↔ a ∈ l ∧ a ∉ ks := by
  induction ks generalizing l with
  | nil => simp
  | cons k ks ih =>
      simp only [List.foldl_cons, ih (listRemove_nodup h k),
        mem_listRemove h, List.mem_cons]
      constructor
      · rintro ⟨⟨ha, hne⟩, hks⟩
        exact ⟨ha, by rintro (rfl | hh) <;> [exact hne rfl; exact hks hh]⟩
      · rintro ⟨ha, hnk⟩
        exact ⟨⟨ha, fun hh => hnk (.inl hh)⟩, fun hh => hnk (.inr hh)⟩

theorem nodup_foldl_listRemove {l : List K} (h : l.Nodup) (ks : List K) :
    (ks.foldl listRemove l).Nodup := by
  induction ks generalizing l with
  | nil => exact h
  | cons k ks ih => exact ih (listRemove_nodup h k)

end ListLemmas

/-! ### Cache representation invariant -/

section CacheInvariant

variable {K V : Type} [DecidableEq K]

/-- Representation invariant tying `_cache` to `_access_order`: keys are
unique, the recency list is duplicate-free, and both hold exactly the
same keys. -/
def CacheInv (c : SimpleCache K V) : Prop :=
  (dictKeys c.cache).Nodup ∧ c.access_order.Nodup ∧
    ∀ a, a ∈ dictKeys c.cache ↔ a ∈ c.access_order

theorem touch_inv {c : SimpleCache K V} (h : CacheInv c) (k : K)
    (e : CacheEntry V) :
    (dictKeys (setKey c.cache k e)).Nodup ∧
    (listRemove c.access_order k ++ [k]).Nodup ∧
    ∀ a, a ∈ dictKeys (setKey c.cache k e) ↔
      a ∈ listRemove c.access_order k ++ [k] := by
  obtain ⟨h1, h2, h3⟩ := h
  have hao : (listRemove c.access_order k ++ [k]).Nodup :=
    nodup_append_singleton (listRemove_nodup h2 k)
      (fun hmem => ((mem_listRemove h2 k k).mp hmem).2 rfl)
  have hmemao : ∀ a, a ∈ listRemove c.access_order k ++ [k] ↔
      (a ∈ c.access_order ∧ a ≠ k) ∨ a = k := by
    intro a
    simp [mem_listRemove h2]
  refine ⟨?_, hao, ?_⟩
  · rw [dictKeys_setKey]
    by_cases hc : containsKey c.cache k
    · simpa [hc] using h1
    · rw [if_neg hc]
      refine nodup_append_singleton h1 ?_
      rw [← containsKey_iff_mem_keys]
      simpa using hc
  · intro a
    rw [dictKeys_setKey, hmemao]
    by_cases hc : containsKey c.cache k
    · rw [if_pos hc]
      by_cases hak : a = k
      · subst hak
        simp only [or_true, iff_true]
        rw [← containsKey_iff_mem_keys]
        exact hc
      · simp only [hak, or_false, and_iff_left hak]
        exact h3 a
    · rw [if_neg hc]
      by_cases hak : a = k
      · subst hak
        simp
      · simp only [List.mem_append, List.mem_singleton, hak, or_false,
          and_iff_left hak]
        exact h3 a

theorem cleanup_inv {c : SimpleCache K V} (h : CacheInv c) (now : ℚ) :
    CacheInv (SimpleCache.cleanup_expired now c) ∧
    (SimpleCache.cleanup_expired now c).cache.length ≤ c.cache.length := by
  obtain ⟨h1, h2, h3⟩ := h
  refine ⟨⟨?_, ?_, ?_⟩, ?_⟩
  · exact (List.Sublist.map Prod.fst (List.filter_sublist c.cache)).nodup h1
  · exact nodup_foldl_listRemove h2 _
  · intro a
    show a ∈ dictKeys (c.cache.filter _) ↔ _
    rw [mem_keys_filter h1]
    rw [show (SimpleCache.cleanup_expired now c).access_order
        = (dictKeys (c.cache.filter fun p =>
            decide (p.2.expires_at < now))).foldl listRemove c.access_order
      from rfl]
    rw [mem_foldl_listRemove h2, mem_keys_filter h1]
    cases hl : lookupKey c.cache a with
    | none =>
        have hna : a ∉ c.access_order := by
          rw [← h3]
          exact (lookupKey_eq_none c.cache a).mp hl
        simp [hna]
    | some e =>
        have hmem : a ∈ c.access_order := by
          rw [← h3, ← containsKey_iff_mem_keys]
          simp [containsKey, hl]
        by_cases hexp : e.expires_at < now
        · simp [hl, hexp, hmem]
        · simp [hl, hexp, hmem]
          exact le_of_not_lt hexp
  · exact length_filter_le _ _

theorem evict_lru_inv {c : SimpleCache K V} (h : CacheInv c) :
    CacheInv (SimpleCache.evict_lru c) ∧
    (0 < c.cache.length →
      (SimpleCache.evict_lru c).cache.length + 1 = c.cache.length) := by
  obtain ⟨h1, h2, h3⟩ := h
  cases hao : c.access_order with
  | nil =>
      have hempty : c.cache.length = 0 := by
        cases hc : c.cache with
        | nil => rfl
        | cons p rest =>
            exfalso
            have : p.1 ∈ c.access_order := by
              rw [← h3, hc]
              simp [dictKeys]
            rw [hao] at this
            cases this
      constructor
      · exact ⟨by simpa [SimpleCache.evict_lru, hao] using h1,
          by simp [SimpleCache.evict_lru, hao],
          by
            intro a
            simp only [SimpleCache.evict_lru, hao]
            rw [h3 a, hao]⟩
      · intro hpos
        omega
  | cons lru rest =>
      have hlmem : lru ∈ dictKeys c.cache := by
        rw [h3, hao]
        simp
      have hcont : containsKey c.cache lru = true :=
        (containsKey_iff_mem_keys _ _).mpr hlmem
      rw [hao, List.nodup_cons] at h2
      simp only [SimpleCache.evict_lru, hao, hcont, if_true]
      constructor
      · refine ⟨?_, h2.2, ?_⟩
        · rw [dictKeys_eraseKey]
          exact (listRemove_sublist _ _).nodup h1
        · intro a
          rw [dictKeys_eraseKey, mem_listRemove h1, h3]
          constructor
          · rintro ⟨ha, hne⟩
            rw [hao] at ha
            rcases List.mem_cons.mp ha with h' | h'
            · exact absurd h' hne
            · exact h'
          · intro ha
            refine ⟨by rw [hao]; exact List.mem_cons_of_mem _ ha, ?_⟩
            rintro rfl
            exact h2.1 ha
      · intro _
        exact length_eraseKey hcont

theorem set_inv {c : SimpleCache K V} (h : CacheInv c) (now : ℚ) (k : K)
    (v : V) (ttl : Option ℚ) : CacheInv (SimpleCache.set now k v ttl c) := by
  unfold SimpleCache.set
  by_cases hcap : c.max_size ≤ c.cache.length
  · rw [if_pos hcap]
    exact touch_inv (evict_lru_inv h).1 k _
  · rw [if_neg hcap]
    exact touch_inv h k _

theorem set_size {c : SimpleCache K V} (h : CacheInv c)
    (hsz : c.cache.length ≤ c.max_size) (hpos : 1 ≤ c.max_size)
    (now : ℚ) (k : K) (v : V) (ttl : Option ℚ) :
    (SimpleCache.set now k v ttl c).cache.length ≤ c.max_size := by
  unfold SimpleCache.set
  by_cases hcap : c.max_size ≤ c.cache.length
  · rw [if_pos hcap]
    have hpos' : 0 < c.cache.length := lt_of_lt_of_le hpos hcap
    have hlen := (evict_lru_inv h).2 hpos'
    have hinv1 := (evict_lru_inv h).1
    rw [length_setKey]
    by_cases hc : containsKey (SimpleCache.evict_lru c).cache k
    · rw [if_pos hc]
      omega
    · rw [if_neg hc]
      omega
  · rw [if_neg hcap]
    rw [length_setKey]
    by_cases hc : containsKey c.cache k
    · rw [if_pos hc]
      exact hsz
    · rw [if_neg hc]
      omega

theorem getCore_inv {c1 : SimpleCache K V} (h : CacheInv c1) (now : ℚ)
    (k : K) :
    CacheInv ((SimpleCache.getCore now k c1).2) ∧
    ((SimpleCache.getCore now k c1).2).cache.length ≤ c1.cache.length := by
  obtain ⟨h1, h2, h3⟩ := h
  unfold SimpleCache.getCore
  cases hl : lookupKey c1.cache k with
  | none => exact ⟨⟨h1, h2, h3⟩, le_rfl⟩
  | some entry =>
      have hcont : containsKey c1.cache k = true := by
        simp [containsKey, hl]
      by_cases hexp : entry.is_expired now = true
      · simp only [hexp, if_true]
        refine ⟨⟨?_, listRemove_nodup h2 k, ?_⟩, ?_⟩
        · rw [dictKeys_eraseKey]
          exact (listRemove_sublist _ _).nodup h1
        · intro a
          rw [dictKeys_eraseKey, mem_listRemove h1, mem_listRemove h2,
            h3 a]
        · have := length_eraseKey hcont
          omega
      · simp only [hexp, if_false, Bool.false_eq_true]
        refine ⟨touch_inv ⟨h1, h2, h3⟩ k _, ?_⟩
        rw [length_setKey, if_pos hcont]

theorem get_inv {c : SimpleCache K V} (h : CacheInv c) (now : ℚ) (k : K) :
    CacheInv ((SimpleCache.get now k c).2) ∧
    ((SimpleCache.get now k c).2).cache.length ≤ c.cache.length := by
  unfold SimpleCache.get
  by_cases hcl : 0 < c.cache.length ∧ ratMod60 now < 1
  · rw [if_pos hcl]
    refine ⟨(getCore_inv (cleanup_inv h now).1 now k).1, ?_⟩
    exact le_trans (getCore_inv (cleanup_inv h now).1 now k).2
      (cleanup_inv h now).2
  · rw [if_neg hcl]
    exact getCore_inv h now k

theorem evict_lru_max_size (c : SimpleCache K V) :
    (SimpleCache.evict_lru c).max_size = c.max_size := by
  unfold SimpleCache.evict_lru
  cases hao : c.access_order
  · rfl
  · dsimp only
    split <;> rfl

theorem set_max_size (c : SimpleCache K V) (now : ℚ) (k : K) (v : V)
    (ttl : Option ℚ) :
    (SimpleCache.set now k v ttl c).max_size = c.max_size := by
  unfold SimpleCache.set
  dsimp only
  split
  · exact evict_lru_max_size c
  · rfl

theorem getCore_max_size (c1 : SimpleCache K V) (now : ℚ) (k : K) :
    ((SimpleCache.getCore now k c1).2).max_size = c1.max_size := by
  unfold SimpleCache.getCore
  cases hl : lookupKey c1.cache k
  · rfl
  · dsimp only
    split <;> rfl

theorem get_max_size (c : SimpleCache K V) (now : ℚ) (k : K) :
    ((SimpleCache.get now k c).2).max_size = c.max_size := by
  unfold SimpleCache.get
  split
  · exact getCore_max_size _ now k
  · exact getCore_max_size _ now k

/-- Everything the size bound needs: the configured capacity is intact,
the representation invariant holds and the size is within capacity. -/
def GoodCache (m : Nat) (c : SimpleCache K V) : Prop :=
  c.max_size = m ∧ CacheInv c ∧ c.cache.length ≤ m

theorem applyOp_good {m : Nat} (hm : 1 ≤ m) {c : SimpleCache K V}
    (h : GoodCache m c) (op : CacheOp K V) : GoodCache m (applyOp c op) := by
  obtain ⟨hms, hinv, hsz⟩ := h
  cases op with
  | set now k v ttl =>
      refine ⟨by rw [applyOp, set_max_size, hms], set_inv hinv now k v ttl, ?_⟩
      show (SimpleCache.set now k v ttl c).cache.length ≤ m
      rw [← hms]
      exact set_size hinv (by rw [hms]; exact hsz) (by rw [hms]; exact hm)
        now k v ttl
  | get now k =>
      refine ⟨by rw [applyOp, get_max_size, hms], (get_inv hinv now k).1, ?_⟩
      exact le_trans (get_inv hinv now k).2 hsz
  | clear =>
      exact ⟨hms, ⟨by simp [applyOp, SimpleCache.clear, dictKeys],
        by simp [applyOp, SimpleCache.clear],
        by simp [applyOp, SimpleCache.clear, dictKeys]⟩,
        by simp [applyOp, SimpleCache.clear]⟩

theorem cacheRun_good {m : Nat} (hm : 1 ≤ m) {c : SimpleCache K V}
    (h : GoodCache m c) (ops : List (CacheOp K V)) :
    GoodCache m (cacheRun c ops) := by
  induction ops generalizing c with
  | nil => exact h
  | cons op ops ih => exact ih (applyOp_good hm h op)

theorem init_good (m : Nat) (hm : 1 ≤ m) (ttlD : ℚ) :
    GoodCache m (SimpleCache.init (K := K) (V := V) m ttlD) :=
  ⟨rfl, ⟨by simp [SimpleCache.init, dictKeys], by simp [SimpleCache.init],
    by simp [SimpleCache.init, dictKeys]⟩, by simp [SimpleCache.init]⟩

end CacheInvariant

/-! ### Claim theorems: cache -/

/-- C3: for every sequence of `set`/`get`/`clear` operations on a cache
created with `max_size = m ≥ 1`, after each operation (i.e. after every
prefix of the sequence) the number of stored entries is at most `m`; and
concretely, with capacity 2, `put a`, `put b`, `put c` for distinct keys
leaves exactly the keys `b` and `c` stored, `a` having been evicted. -/
theorem cache_capacity_invariant {K V : Type} [DecidableEq K] (m : Nat)
    (ttlD : ℚ) (hm : 1 ≤ m) (ops : List (CacheOp K V)) :
    (∀ pre rest, ops = pre ++ rest →
      (cacheRun (SimpleCache.init m ttlD) pre).cache.length ≤ m) ∧
    (dictKeys (cacheRun (SimpleCache.init (K := String) (V := Nat) 2 300)
        [.set 0 "a" 1 none, .set 0 "b" 2 none, .set 0 "c" 3 none]).cache
      = ["b", "c"] ∧
    lookupKey (cacheRun (SimpleCache.init (K := String) (V := Nat) 2 300)
        [.set 0 "a" 1 none, .set 0 "b" 2 none, .set 0 "c" 3 none]).cache "a"
      = none) := by
  refine ⟨?_, by decide, by decide⟩
  intro pre rest _
  exact (cacheRun_good hm (init_good m hm ttlD) pre).2.2

/-- C3 witness: capacity 1, a single `clear`. -/
theorem cache_capacity_invariant_witness :
    (cacheRun (SimpleCache.init (K := String) (V := Nat) 1 300)
      [CacheOp.clear]).cache.length ≤ 1 :=
  (cache_capacity_invariant (K := String) (V := Nat) 1 300 (by norm_num)
    [CacheOp.clear]).1 [CacheOp.clear] [] rfl

/-- A cache holding one entry for key `"k"`, value `1`, stored at `t = 0`
with TTL 5 (so `expires_at = 5`). -/
def ttlCache1 : SimpleCache String Nat :=
  SimpleCache.set 0 "k" 1 (some 5) (SimpleCache.init 10 300)

/-- C7 counterexample: the entry stored at `t = 0` with `ttl = 5` has
`expires_at = 5`, and `get` at exactly `t = 5` returns the cached value —
a hit, where the claim asserts a miss at `t = expires_at` (the code's
expiry test `time.time() > expires_at` is strict). -/
theorem get_at_exact_expiry_is_hit :
    (lookupKey ttlCache1.cache "k").map CacheEntry.expires_at = some 5 ∧
    (SimpleCache.get 5 "k" ttlCache1).1 = some 1 := by
  constructor
  · norm_num [ttlCache1, SimpleCache.set, SimpleCache.init, setKey,
      listRemove, lookupKey]
  · norm_num [ttlCache1, SimpleCache.get, SimpleCache.getCore,
      SimpleCache.set, SimpleCache.init, SimpleCache.cleanup_expired,
      ratMod60, setKey, listRemove, lookupKey, CacheEntry.is_expired,
      dictKeys]

/-- C7 (amended): for an entry stored by `set` at `t0` with TTL `ttl`
into a fresh cache, `get` at any `t ≤ t0 + ttl` (up to and including the
expiry instant) returns the cached value, and `get` at any
`t > t0 + ttl` (strictly after expiry) returns absent and removes the
entry. -/
theorem cache_ttl_boundary {K V : Type} [DecidableEq K] (m : Nat)
    (hm : 1 ≤ m) (ttlD : ℚ) (k : K) (v : V) (t0 ttl t : ℚ) :
    (t ≤ t0 + ttl →
      (SimpleCache.get t k (SimpleCache.set t0 k v (some ttl)
        (SimpleCache.init m ttlD))).1 = some v) ∧
    (t0 + ttl < t →
      (SimpleCache.get t k (SimpleCache.set t0 k v (some ttl)
        (SimpleCache.init m ttlD))).1 = none ∧
      lookupKey ((SimpleCache.get t k (SimpleCache.set t0 k v (some ttl)
        (SimpleCache.init m ttlD))).2).cache k = none) := by
  have hc1 : SimpleCache.set t0 k v (some ttl) (SimpleCache.init m ttlD) =
      { max_size := m, default_ttl := ttlD,
        cache := [(k, ⟨v, t0, t0 + ttl, 0⟩)], access_order := [k],
        hits := 0, misses := 0, evictions := 0, expired_entries := 0 } := by
    unfold SimpleCache.set SimpleCache.init
    rw [if_neg (by simp; omega)]
    simp [setKey, listRemove]
  rw [hc1]
  constructor
  · intro hle
    have hexp : ¬(t0 + ttl < t) := not_lt.mpr hle
    unfold SimpleCache.get
    by_cases hmod : ratMod60 t < 1
    · rw [if_pos ⟨by norm_num, hmod⟩]
      simp [SimpleCache.cleanup_expired, SimpleCache.getCore, lookupKey,
        dictKeys, listRemove, CacheEntry.is_expired, hexp]
    · rw [if_neg (fun h => hmod h.2)]
      simp [SimpleCache.getCore, lookupKey, CacheEntry.is_expired, hexp]
  · intro hexp
    unfold SimpleCache.get
    by_cases hmod : ratMod60 t < 1
    · rw [if_pos ⟨by norm_num, hmod⟩]
      constructor <;>
        simp [SimpleCache.cleanup_expired, SimpleCache.getCore, lookupKey,
          dictKeys, listRemove, eraseKey, CacheEntry.is_expired, hexp]
    · rw [if_neg (fun h => hmod h.2)]
      constructor <;>
        simp [SimpleCache.getCore, lookupKey, eraseKey, listRemove,
          CacheEntry.is_expired, hexp]

/-- C7 amended-claim witness: hit at `t = 4` (before expiry), miss at
`t = 6` (strictly after expiry). -/
theorem cache_ttl_boundary_witness :
    (SimpleCache.get 4 "k" (SimpleCache.set 0 "k" 1 (some 5)
      (SimpleCache.init (K := String) (V := Nat) 10 300))).1 = some 1 ∧
    (SimpleCache.get 6 "k" (SimpleCache.set 0 "k" 1 (some 5)
      (SimpleCache.init (K := String) (V := Nat) 10 300))).1 = none :=
  ⟨(cache_ttl_boundary 10 (by norm_num) 300 "k" 1 0 5 4).1 (by norm_num),
   ((cache_ttl_boundary 10 (by norm_num) 300 "k" 1 0 5 6).2
     (by norm_num)).1⟩

/-- A capacity-2 cache filled with keys `"a"` then `"b"`. -/
def lruAB : SimpleCache String Nat :=
  SimpleCache.set 2 "b" 2 none
    (SimpleCache.set 1 "a" 1 none (SimpleCache.init 2 300))

/-- C8 counterexample: with capacity 2 and both `"a"` and `"b"` present,
a `set` that merely overwrites the already-present key `"b"` still evicts
the least-recently-used entry `"a"` — the code evicts whenever
`len(cache) >= max_size`, not only when inserting a brand-new key. -/
theorem set_overwrite_evicts :
    containsKey lruAB.cache "a" = true ∧
    containsKey lruAB.cache "b" = true ∧
    lruAB.cache.length = 2 ∧
    lruAB.max_size = 2 ∧
    containsKey (SimpleCache.set 3 "b" 5 none lruAB).cache "a" = false ∧
    (SimpleCache.set 3 "b" 5 none lruAB).evictions = 1 := by
  decide

/-- C8 (amended): `set` evicts no entry and leaves every other key's
binding unchanged when the cache is strictly below capacity; when the
cache is at (or beyond) capacity it evicts the entry at the head of the
recency order — even when the key being written is already present — so
the least-recently-used key is afterwards absent whenever it differs from
the key being written. -/
theorem set_eviction_rule {K V : Type} [DecidableEq K]
    (c : SimpleCache K V) (now : ℚ) (k : K) (v : V) (ttl : Option ℚ) :
    (c.cache.length < c.max_size →
      (SimpleCache.set now k v ttl c).evictions = c.evictions ∧
      ∀ k', k' ≠ k →
        lookupKey (SimpleCache.set now k v ttl c).cache k'
          = lookupKey c.cache k') ∧
    (∀ lru rest, (dictKeys c.cache).Nodup → c.access_order = lru :: rest →
      lru ≠ k → containsKey c.cache lru = true →
      c.max_size ≤ c.cache.length →
      lookupKey (SimpleCache.set now k v ttl c).cache lru = none) := by
  constructor
  · intro hlt
    unfold SimpleCache.set
    rw [if_neg (not_le.mpr hlt)]
    exact ⟨rfl, fun k' hk' => lookupKey_setKey_ne c.cache hk' _⟩
  · intro lru rest hnd hao hne hcont hcap
    unfold SimpleCache.set
    rw [if_pos hcap]
    simp only [SimpleCache.evict_lru, hao, hcont, if_true]
    rw [lookupKey_setKey_ne _ hne, lookupKey_eraseKey_self hnd]

/-- C8 amended-claim witness: overwriting `"b"` at capacity evicts the
recency-head `"a"`. -/
theorem set_eviction_rule_witness :
    lookupKey (SimpleCache.set 3 "b" 5 none lruAB).cache "a" = none :=
  (set_eviction_rule lruAB 3 "b" 5 none).2 "a" ["b"] (by decide) (by decide)
    (by decide) (by decide) (by decide)

/-! ### API response cache TTL selection and the client request path -/

/-- `APIResponseCache.ttl_config` (insertion order preserved). -/
def ttl_config : List (String × Nat) :=
  [("api_status", 120), ("api_credits", 300), ("coin_single", 60),
   ("coins_list", 90), ("exchanges_list", 600), ("market_overview", 300)]

/-- Python's substring test `needle in hay` for strings. -/
def substrB (needle hay : String) : Bool :=
  hay.toList.tails.any fun t => needle.toList.isPrefixOf t

/-- `APIResponseCache.get_ttl_for_endpoint`: first `ttl_config` key that
occurs as a substring of the endpoint wins, otherwise the 300-second
default. -/
def get_ttl_for_endpoint (endpoint : String) : Nat :=
  match ttl_config.find? (fun p => substrB p.1 endpoint) with
  | some p => p.2
  | none => 300

/-- The endpoint strings `LCWClient` actually passes to `_make_request`
(and hence to the response cache). -/
def lcwEndpoints : List String :=
  ["status", "credits", "coins/single", "coins/single/history",
   "coins/list", "exchanges/list", "overview", "overview/history",
   "fiats/all"]

/-- Exceptions raised by `_make_request` (`LCWAPIError` with optional
status code, and its subclasses). -/
inductive LCWError where
  | api (status : Option Nat)
  | auth
  | rateLimit
  | network
deriving DecidableEq, Repr

/-- What the network returns for the single POST `_make_request` issues:
an HTTP status with a body, or a `requests` exception. -/
inductive NetResult (V : Type) where
  | status (code : Nat) (body : V)
  | timeout
  | connError
  | reqExc

/-- Mutable state of an `LCWClient`: its circuit breaker, the global
`api_cache` (keyed by `(endpoint, params)`), and the `enable_caching`
flag. -/
structure ClientState (P V : Type) where
  breaker : CircuitBreaker
  respCache : SimpleCache (String × P) V
  enable_caching : Bool

/-- `APIResponseCache.get_cached_response`. -/
def get_cached_response {P V : Type} [DecidableEq P]
    (cache : SimpleCache (String × P) V) (endpoint : String) (params : P)
    (now : ℚ) : Option V × SimpleCache (String × P) V :=
  SimpleCache.get now (endpoint, params) cache

/-- `APIResponseCache.cache_response` (smart TTL from the endpoint). -/
def cache_response {P V : Type} [DecidableEq P]
    (cache : SimpleCache (String × P) V) (endpoint : String) (params : P)
    (response : V) (now : ℚ) : SimpleCache (String × P) V :=
  SimpleCache.set now (endpoint, params) response
    (some ((get_ttl_for_endpoint endpoint : Nat) : ℚ)) cache

/-- The part of `_make_request` after the cache probe: circuit-breaker
gate, the POST itself, status-code handling, breaker bookkeeping and
response caching.  The `Nat` component counts network requests issued.
`vTruthy` is Python truthiness of the decoded response body. -/
def make_request_net {P V : Type} [DecidableEq P] (vTruthy : V → Bool)
    (net : NetResult V) (st : ClientState P V) (endpoint : String)
    (payload : P) (use_cache : Bool) (now : ℚ) :
    Except LCWError V × ClientState P V × Nat :=
  let gate := st.breaker.can_execute now
  if gate.1 = false then
    (.error (.api (some 503)), { st with breaker := gate.2 }, 0)
  else
    match net with
    | .timeout =>
        (.error .network, { st with breaker := gate.2.record_failure now }, 1)
    | .connError =>
        (.error .network, { st with breaker := gate.2.record_failure now }, 1)
    | .reqExc =>
        (.error .network, { st with breaker := gate.2.record_failure now }, 1)
    | .status code body =>
        if code = 401 then
          (.error .auth, { st with breaker := gate.2.record_failure now }, 1)
        else if code = 429 then
          (.error .rateLimit, { st with breaker := gate.2 }, 1)
        else if 500 ≤ code then
          (.error (.api (some code)),
           { st with breaker := gate.2.record_failure now }, 1)
        else if 400 ≤ code then
          (.error (.api (some code)), { st with breaker := gate.2 }, 1)
        else
          (.ok body,
           { st with
             breaker := gate.2.record_success
             respCache :=
               if st.enable_caching = true ∧ use_cache = true
                   ∧ vTruthy body = true then
                 cache_response st.respCache endpoint payload body now
               else st.respCache }, 1)

/-- `LCWClient._make_request`: try the response cache first (when
enabled), short-circuiting on a fresh hit; otherwise fall through to the
network path. -/
def make_request {P V : Type} [DecidableEq P] (vTruthy : V → Bool)
    (net : NetResult V) (st : ClientState P V) (endpoint : String)
    (payload : P) (use_cache : Bool) (now : ℚ) :
    Except LCWError V × ClientState P V × Nat :=
  if st.enable_caching = true ∧ use_cache = true then
    match get_cached_response st.respCache endpoint payload now with
    | (some v, c2) => (.ok v, { st with respCache := c2 }, 0)
    | (none, c2) =>
        make_request_net vTruthy net { st with respCache := c2 } endpoint
          payload use_cache now
  else
    make_request_net vTruthy net st endpoint payload use_cache now

/-! ### Claim theorems: client -/

/-- C10: for every endpoint string the client passes to the response
cache, no key of the per-operation TTL table is a substring of the
endpoint, so `get_ttl_for_endpoint` falls through to the 300-second
default — the per-operation TTL differentiation never applies. -/
theorem ttl_differentiation_never_applies :
    ∀ e ∈ lcwEndpoints,
      get_ttl_for_endpoint e = 300 ∧
      ∀ p ∈ ttl_config, substrB p.1 e = false := by
  decide

/-- C10 witness at the `coins/list` endpoint. -/
theorem ttl_differentiation_never_applies_witness :
    get_ttl_for_endpoint "coins/list" = 300 ∧
    ∀ p ∈ ttl_config, substrB p.1 "coins/list" = false :=
  ttl_differentiation_never_applies "coins/list" (by decide)

/-- C9: when caching is enabled and the fingerprint has a fresh cached
response, `_make_request` returns the cached value without touching the
circuit breaker (whatever its state, including `OPEN`) and without
issuing any network request; only the response cache's bookkeeping
changes. -/
theorem cache_hit_bypasses_breaker {P V : Type} [DecidableEq P]
    (vTruthy : V → Bool) (net : NetResult V) (st : ClientState P V)
    (endpoint : String) (payload : P) (now : ℚ) (v : V)
    (hen : st.enable_caching = true)
    (hhit : (SimpleCache.get now (endpoint, payload) st.respCache).1
      = some v) :
    make_request vTruthy net st endpoint payload true now =
      (.ok v,
       { st with
         respCache := (SimpleCache.get now (endpoint, payload)
           st.respCache).2 }, 0) ∧
    (make_request vTruthy net st endpoint payload true now).2.1.breaker
      = st.breaker ∧
    (make_request vTruthy net st endpoint payload true now).2.2 = 0 := by
  have hmain : make_request vTruthy net st endpoint payload true now =
      (.ok v,
       { st with
         respCache := (SimpleCache.get now (endpoint, payload)
           st.respCache).2 }, 0) := by
    unfold make_request get_cached_response
    rw [if_pos ⟨hen, rfl⟩]
    rcases hg : SimpleCache.get now (endpoint, payload) st.respCache
      with ⟨o, c2⟩
    rw [hg] at hhit
    simp only at hhit
    subst hhit
    rfl
  exact ⟨hmain, by rw [hmain], by rw [hmain]⟩

/-- A client state whose breaker is open and whose cache holds a fresh
response for `("status", 0)` stored at `t = 0` with TTL 5. -/
def openClientState : ClientState Nat Nat :=
  { breaker := openBreakerAt0
    respCache := SimpleCache.set 0 ("status", 0) 42 (some 5)
      (SimpleCache.init 10 300)
    enable_caching := true }

/-- C9 witness: at `t = 3` the cached response is served, the open
breaker is untouched and no network request happens. -/
theorem cache_hit_bypasses_breaker_witness :
    (make_request (fun _ => true) NetResult.timeout openClientState
      "status" 0 true 3).2.1.breaker = openClientState.breaker ∧
    (make_request (fun _ => true) NetResult.timeout openClientState
      "status" 0 true 3).2.2 = 0 :=
  ⟨(cache_hit_bypasses_breaker (fun _ => true) NetResult.timeout
      openClientState "status" 0 3 42 rfl (by
        norm_num [openClientState, SimpleCache.get, SimpleCache.getCore,
          SimpleCache.set, SimpleCache.init, SimpleCache.cleanup_expired,
          ratMod60, setKey, listRemove, lookupKey, CacheEntry.is_expired,
          dictKeys])).2.1,
   (cache_hit_bypasses_breaker (fun _ => true) NetResult.timeout
      openClientState "status" 0 3 42 rfl (by
        norm_num [openClientState, SimpleCache.get, SimpleCache.getCore,
          SimpleCache.set, SimpleCache.init, SimpleCache.cleanup_expired,
          ratMod60, setKey, listRemove, lookupKey, CacheEntry.is_expired,
          dictKeys])).2.2⟩

/-! ### Fetch orchestration (`fetcher.py`, class `DataFetcher`)

The API client and database are abstracted into an environment recording
the outcome of each call `run_full_fetch` makes: the status check, the
credits call, one `get_coin_single` outcome per tracked code, the
`get_coins_list` / `get_exchanges_list` / `get_overview` outcomes, and
the success of each database store. -/

/-- Which exception a failing client call raises (`LCWRateLimitError`,
plain `LCWAPIError`, `LCWNetworkError` — a subclass of `LCWAPIError` —
or any other `Exception`).  The fetch helpers catch all of them. -/
inductive FetchErr where
  | rateLimit
  | api
  | network
  | other
deriving DecidableEq, Repr

/-- The `stats` dict built by `run_full_fetch`. -/
structure FetchStats where
  coins_fetched : Nat
  coins_stored : Nat
  exchanges_fetched : Nat
  exchanges_stored : Nat
  markets_fetched : Nat
  markets_stored : Nat
  errors : Nat
deriving DecidableEq, Repr

/-- Outcomes of the external calls made during one `run_full_fetch`
cycle, over abstract coin/exchange/market data types. -/
structure FetchEnv (C E M : Type) where
  api_status_ok : Bool
  credits : Option Nat
  tracked_coins : List String
  coin_single : String → Except FetchErr C
  coins_list_result : Except FetchErr (List C)
  exchanges_result : Except FetchErr (List E)
  overview_result : Except FetchErr (List M)
  store_tracked_ok : Bool
  store_top_ok : Bool
  store_exchanges_ok : Bool
  store_markets_ok : Bool

/-- `DataFetcher.fetch_specific_coins`: every failing code is skipped
(`continue`), successes are appended in order. -/
def fetch_specific_coins {C E M : Type} (env : FetchEnv C E M)
    (codes : List String) : List C :=
  codes.foldl
    (fun acc code =>
      match env.coin_single code with
      | .ok c => acc ++ [c]
      | .error _ => acc)
    []

/-- `DataFetcher.fetch_coins_list`: any exception yields `[]`. -/
def fetch_coins_list {C E M : Type} (env : FetchEnv C E M) : List C :=
  match env.coins_list_result with
  | .ok cs => cs
  | .error _ => []

/-- `DataFetcher.fetch_exchanges_list`: any exception yields `[]`. -/
def fetch_exchanges_list {C E M : Type} (env : FetchEnv C E M) : List E :=
  match env.exchanges_result with
  | .ok es => es
  | .error _ => []

/-- `DataFetcher.fetch_market_overview`: any exception yields `[]`. -/
def fetch_market_overview {C E M : Type} (env : FetchEnv C E M) : List M :=
  match env.overview_result with
  | .ok ms => ms
  | .error _ => []

/-- `DataFetcher.store_coins` / `store_exchanges` / `store_markets`: an
empty list is stored trivially (`return True` before touching the DB);
otherwise the DB write's success decides. -/
def store_list {α : Type} (ok : Bool) (xs : List α) : Bool :=
  if xs.isEmpty then true else ok

/-- `DataFetcher.run_full_fetch`: status gate, credits (log only),
tracked-coin fetch+store, top-20 fetch+store, exchanges, market
overview; `errors` counts only the status-gate failure and store
failures. -/
def run_full_fetch {C E M : Type} (env : FetchEnv C E M) : FetchStats :=
  if env.api_status_ok = false then
    { coins_fetched := 0, coins_stored := 0, exchanges_fetched := 0
      exchanges_stored := 0, markets_fetched := 0, markets_stored := 0
      errors := 1 }
  else
    let s0 : FetchStats :=
      { coins_fetched := 0, coins_stored := 0, exchanges_fetched := 0
        exchanges_stored := 0, markets_fetched := 0, markets_stored := 0
        errors := 0 }
    let s1 :=
      if env.tracked_coins.isEmpty = false then
        let coins := fetch_specific_coins env env.tracked_coins
        let s := { s0 with coins_fetched := coins.length }
        if store_list env.store_tracked_ok coins then
          { s with coins_stored := coins.length }
        else
          { s with errors := s.errors + 1 }
      else s0
    let top := fetch_coins_list env
    let s2 :=
      if top.isEmpty = false then
        let s := { s1 with coins_fetched := s1.coins_fetched + top.length }
        if store_list env.store_top_ok top then
          { s with coins_stored := s.coins_stored + top.length }
        else
          { s with errors := s.errors + 1 }
      else s1
    let exchanges := fetch_exchanges_list env
    let s3 :=
      if exchanges.isEmpty = false then
        let s := { s2 with exchanges_fetched := exchanges.length }
        if store_list env.store_exchanges_ok exchanges then
          { s with exchanges_stored := exchanges.length }
        else
          { s with errors := s.errors + 1 }
      else s2
    let markets := fetch_market_overview env
    if markets.isEmpty = false then
      let s := { s3 with markets_fetched := markets.length }
      if store_list env.store_markets_ok markets then
        { s with markets_stored := markets.length }
      else
        { s with errors := s.errors + 1 }
    else s3

/-- The C1 scenario, concretely: status and credits fine, every coin
fetch raises `LCWNetworkError`, exchanges and overview fetch one item
each, every store succeeds. -/
def envC1 : FetchEnv Nat Nat Nat :=
  { api_status_ok := true
    credits := some 100
    tracked_coins := ["BTC", "ETH"]
    coin_single := fun _ => .error .network
    coins_list_result := .error .network
    exchanges_result := .ok [7]
    overview_result := .ok [9]
    store_tracked_ok := true
    store_top_ok := true
    store_exchanges_ok := true
    store_markets_ok := true }

/-! ### Claim theorems: fetcher -/

/-- C1 counterexample: in the claimed scenario (status and credits OK,
coin fetches failing with `LCWNetworkError`, exchange and market fetches
and stores succeeding), `run_full_fetch` returns `errors = 0`, not
`errors >= 1`: the coin-fetch helpers swallow the exception and return
empty lists, and storing an empty list counts as success. -/
theorem run_full_fetch_errors_zero :
    ¬(1 ≤ (run_full_fetch envC1).errors) ∧
    (run_full_fetch envC1).errors = 0 ∧
    (run_full_fetch envC1).coins_fetched = 0 ∧
    (run_full_fetch envC1).exchanges_stored = 1 ∧
    (run_full_fetch envC1).markets_stored = 1 := by
  decide

/-- C1 (amended): when the API status check and credits call succeed,
every coin fetch fails with a `LCWNetworkError`, and the exchange fetch,
market-overview fetch and their stores succeed with non-empty data, the
returned stats have `errors = 0` (coin-fetch failures are swallowed
inside the fetch helpers and an empty store is a success) and non-zero
`exchanges_stored` and `markets_stored`. -/
theorem partial_failure_isolation {C E M : Type} (env : FetchEnv C E M)
    (hstatus : env.api_status_ok = true)
    (hcoins : ∀ code, env.coin_single code = .error .network)
    (htop : env.coins_list_result = .error .network)
    (es : List E) (hex : env.exchanges_result = .ok es) (hes : es ≠ [])
    (hstex : env.store_exchanges_ok = true)
    (ms : List M) (hov : env.overview_result = .ok ms) (hms : ms ≠ [])
    (hstm : env.store_markets_ok = true) :
    (run_full_fetch env).errors = 0 ∧
    (run_full_fetch env).exchanges_stored = es.length ∧
    (run_full_fetch env).markets_stored = ms.length ∧
    (run_full_fetch env).exchanges_stored ≠ 0 ∧
    (run_full_fetch env).markets_stored ≠ 0 := by
  have hspec : fetch_specific_coins env env.tracked_coins = [] := by
    have haux : ∀ (codes : List String) (acc : List C),
        List.foldl
          (fun acc code =>
            match env.coin_single code with
            | .ok c => acc ++ [c]
            | .error _ => acc) acc codes = acc := by
      intro codes
      induction codes with
      | nil => intro acc; rfl
      | cons code codes ih =>
          intro acc
          simp only [List.foldl_cons, hcoins code]
          exact ih acc
    exact haux env.tracked_coins []
  have hesne : es.isEmpty = false := by
    cases es with
    | nil => exact absurd rfl hes
    | cons e es => rfl
  have hmsne : ms.isEmpty = false := by
    cases ms with
    | nil => exact absurd rfl hms
    | cons m ms => rfl
  have hmain : run_full_fetch env =
      { coins_fetched := 0, coins_stored := 0,
        exchanges_fetched := es.length, exchanges_stored := es.length,
        markets_fetched := ms.length, markets_stored := ms.length,
        errors := 0 } := by
    unfold run_full_fetch
    rw [hstatus]
    by_cases htr : env.tracked_coins.isEmpty = false
    · simp [htr, hspec, fetch_coins_list, htop, fetch_exchanges_list, hex,
        fetch_market_overview, hov, hesne, hmsne, store_list, hstex, hstm]
    · simp [htr, hspec, fetch_coins_list, htop, fetch_exchanges_list, hex,
        fetch_market_overview, hov, hesne, hmsne, store_list, hstex, hstm]
  rw [hmain]
  exact ⟨rfl, rfl, rfl, fun h => hes (List.length_eq_zero.mp h),
    fun h => hms (List.length_eq_zero.mp h)⟩

/-- C1 amended-claim witness at the concrete scenario `envC1`. -/
theorem partial_failure_isolation_witness :
    (run_full_fetch envC1).errors = 0 ∧
    (run_full_fetch envC1).exchanges_stored = List.length [7] ∧
    (run_full_fetch envC1).markets_stored = List.length [9] ∧
    (run_full_fetch envC1).exchanges_stored ≠ 0 ∧
    (run_full_fetch envC1).markets_stored ≠ 0 :=
  partial_failure_isolation envC1 rfl (fun _ => rfl) rfl [7] rfl
    (by decide) rfl [9] rfl (by decide) rfl

end LCW
